import Mathlib

/-!
Verification of the ALNS (adaptive large neighbourhood search) engine
specification against the repository.  The repository sources available
here contain the feature notebook with the knapsack operators; the engine
itself (ALNS.iterate, the selection schemes, the acceptance and stopping
criteria) is not included, so those parts are modelled from the
specification text, as marked on each definition.
-/

namespace AlnsModel

/-- Modelled from the spec: the four outcome categories produced by the
candidate classification in each iteration of ALNS.iterate (the engine
module is not included under src/). -/
inductive Outcome where
  | best
  | better
  | accept
  | reject
deriving DecidableEq, Repr

/-- Modelled from the spec: the deterministic seeded random source.  The
seed determines a stream of uniform draws in [0,1), modelled as rationals,
consumed in order through a position counter. -/
structure Rng where
  stream : ℕ → ℚ
  pos : ℕ

/-- Consume one draw from the random source. -/
def Rng.draw (r : Rng) : ℚ × Rng := (r.stream r.pos, ⟨r.stream, r.pos + 1⟩)

/-- Modelled from the spec: the ALNS engine data.  Solution states live in
an abstract type S with a rational objective; the selection scheme, the
acceptance criterion and the stopping criterion are abstract stateful
components with the interfaces of spec sections 4.2, 4.3 and 4.4; the
engine module itself is not included under src/. -/
structure Engine (S SelS AccS StopS : Type) where
  objective : S → ℚ
  destroyOps : List (S → Rng → S × Rng)
  repairOps : List (S → Rng → S × Rng)
  onBest : List (S → Rng → Option S × Rng)
  choose : SelS → Rng → S → S → (ℕ × ℕ) × Rng × SelS
  updateSel : SelS → S → ℕ → ℕ → Outcome → SelS
  acceptFn : AccS → Rng → ℚ → ℚ → ℚ → (Bool × Rng) × AccS
  stopFn : StopS → Rng → ℚ → ℚ → Bool × StopS

/-- Modelled from the spec: the mutable state of one ALNS.iterate call:
best and current solutions, the random source, the component states, the
statistics log (one record per executed iteration: destroy index, repair
index, outcome) and a flag recording that the stopping criterion fired. -/
structure LoopState (S SelS AccS StopS : Type) where
  best : S
  curr : S
  rng : Rng
  sel : SelS
  acc : AccS
  stp : StopS
  log : List (ℕ × ℕ × Outcome)
  halted : Bool

/-- Result of classifying one candidate: the outcome category, the new
best and current solutions, the threaded random source and acceptance
state, and whether the acceptance criterion was consulted. -/
structure Verdict (S AccS : Type) where
  outcome : Outcome
  newBest : S
  newCurr : S
  rng : Rng
  acc : AccS
  consulted : Bool

/-- Modelled from the spec, section 4.1 step 4: classify a candidate by
strict comparison against best and current, in the fixed order BEST,
BETTER, ACCEPT, REJECT; the acceptance criterion is consulted only in the
final two cases (the engine module is not included under src/). -/
def considerCandidate {S AccS : Type} (f : S → ℚ)
    (accFn : AccS → Rng → ℚ → ℚ → ℚ → (Bool × Rng) × AccS)
    (best curr cand : S) (rng : Rng) (acc : AccS) : Verdict S AccS :=
  if f cand < f best then
    ⟨Outcome.best, cand, cand, rng, acc, false⟩
  else if f cand < f curr then
    ⟨Outcome.better, best, cand, rng, acc, false⟩
  else
    let res := accFn acc rng (f best) (f curr) (f cand)
    if res.1.1 then ⟨Outcome.accept, best, cand, res.1.2, res.2, true⟩
    else ⟨Outcome.reject, best, curr, res.1.2, res.2, true⟩

/-- Modelled from the spec: fire the on_best callbacks in order; a
returned state replaces both best and current when it is strictly better
than the incumbent best (the engine module is not included under src/). -/
def fireCallbacks {S : Type} (f : S → ℚ) :
    List (S → Rng → Option S × Rng) → S → S → Rng → S × S × Rng
  | [], best, curr, rng => (best, curr, rng)
  | cb :: rest, best, curr, rng =>
    let res := cb best rng
    match res.1 with
    | some s =>
      if f s < f best then fireCallbacks f rest s s res.2
      else fireCallbacks f rest best curr res.2
    | none => fireCallbacks f rest best curr res.2

/-- Modelled from the spec, section 4.1: one iteration body of
ALNS.iterate.  The random source is consumed in the fixed order selection
scheme, destroy operator, repair operator, acceptance criterion; then the
selection scheme is updated and a statistics record is appended (the
engine module is not included under src/). -/
def step {S SelS AccS StopS : Type} (E : Engine S SelS AccS StopS)
    (st : LoopState S SelS AccS StopS) : LoopState S SelS AccS StopS :=
  let c := E.choose st.sel st.rng st.best st.curr
  let dIdx := c.1.1
  let rIdx := c.1.2
  let dOp := E.destroyOps.getD dIdx (fun s r => (s, r))
  let d := dOp st.curr c.2.1
  let rOp := E.repairOps.getD rIdx (fun s r => (s, r))
  let rp := rOp d.1 d.2
  let v := considerCandidate E.objective E.acceptFn st.best st.curr rp.1 rp.2 st.acc
  let fired :=
    if v.outcome = Outcome.best then
      fireCallbacks E.objective E.onBest v.newBest v.newCurr v.rng
    else (v.newBest, v.newCurr, v.rng)
  { best := fired.1, curr := fired.2.1, rng := fired.2.2,
    sel := E.updateSel c.2.2 rp.1 dIdx rIdx v.outcome, acc := v.acc,
    stp := st.stp, log := st.log ++ [(dIdx, rIdx, v.outcome)],
    halted := st.halted }

/-- Modelled from the spec: one turn of the main loop.  The stopping
criterion is consulted at the top of the iteration; when it fires the
loop halts, otherwise the iteration body runs (the engine module is not
included under src/). -/
def runOne {S SelS AccS StopS : Type} (E : Engine S SelS AccS StopS)
    (st : LoopState S SelS AccS StopS) : LoopState S SelS AccS StopS :=
  if st.halted then st
  else
    let sc := E.stopFn st.stp st.rng (E.objective st.best) (E.objective st.curr)
    if sc.1 then { st with stp := sc.2, halted := true }
    else step E { st with stp := sc.2 }

/-- Modelled from the spec: the main loop of ALNS.iterate, observed after
n loop turns. -/
def run {S SelS AccS StopS : Type} (E : Engine S SelS AccS StopS)
    (st : LoopState S SelS AccS StopS) : ℕ → LoopState S SelS AccS StopS
  | 0 => st
  | n + 1 => runOne E (run E st n)

/-- Modelled from the spec: the loop state at entry of ALNS.iterate: best
and current are the initial solution, the statistics are empty, and the
random source sits at the start of the seeded stream. -/
def initState {S SelS AccS StopS : Type} (s0 : S) (g : ℕ → ℚ)
    (sel0 : SelS) (acc0 : AccS) (stp0 : StopS) : LoopState S SelS AccS StopS :=
  ⟨s0, s0, ⟨g, 0⟩, sel0, acc0, stp0, [], false⟩

/-- Modelled from the spec, section 4.4: the MaxIterations stopping
criterion stops after exactly n iterations have executed; its state is
the number of stop checks made so far (the stop module is not included
under src/). -/
def maxIterationsStop (n : ℕ) : ℕ → Rng → ℚ → ℚ → Bool × ℕ :=
  fun c _ _ _ => (decide (n ≤ c), c + 1)

/-- Modelled from the spec, section 4.1: an objective value as observed
by the engine, either a finite real (modelled as a rational) or a
non-finite value (NaN or positive infinity); the engine module is not
included under src/. -/
inductive FObj where
  | fin (q : ℚ)
  | nan
  | posInf
deriving DecidableEq, Repr

/-- Whether an observed objective value is a finite real number. -/
def FObj.isFinite : FObj → Bool
  | .fin _ => true
  | .nan => false
  | .posInf => false

/-- Modelled from the spec, section 7: the typed error raised on a
non-finite candidate objective in strict mode. -/
inductive EngineError where
  | invalidObjective
deriving DecidableEq, Repr

/-- Modelled from the spec, sections 4.1 and 7: the guard the engine
applies to a candidate objective before classification.  A finite value
is passed to the normal classification (a continuation producing the
outcome and the consulted flag for the acceptance criterion); a
non-finite value is treated as REJECT without consulting the acceptance
criterion, the search continuing, unless strict mode is set, in which
case InvalidObjectiveError propagates (the engine module is not included
under src/). -/
def evalCandidateGuard (strict : Bool) (cand : FObj)
    (classify : ℚ → Outcome × Bool) : Except EngineError (Outcome × Bool) :=
  match cand with
  | .fin q => Except.ok (classify q)
  | _ =>
    if strict then Except.error EngineError.invalidObjective
    else Except.ok (Outcome.reject, false)

/-- Index of an outcome category into the four-element score vector. -/
def Outcome.idx : Outcome → ℕ
  | .best => 0
  | .better => 1
  | .accept => 2
  | .reject => 3

/-- Modelled from the spec, section 4.2: the RouletteWheel selection
scheme state: the score vector, the decay, and one weight vector per
operator kind (the select module is not included under src/). -/
structure RouletteWheel where
  scores : List ℚ
  decay : ℚ
  dWeights : List ℚ
  rWeights : List ℚ

/-- Modelled from the spec: RouletteWheel construction; both weight
vectors are initialized to 1. -/
def RouletteWheel.init (scores : List ℚ) (decay : ℚ)
    (numDestroy numRepair : ℕ) : RouletteWheel :=
  ⟨scores, decay, List.replicate numDestroy 1, List.replicate numRepair 1⟩

/-- One convex-combination weight update at index i. -/
def convexUpdate (θ s : ℚ) (ws : List ℚ) (i : ℕ) : List ℚ :=
  ws.set i (θ * ws.getD i 0 + (1 - θ) * s)

/-- Modelled from the spec: the RouletteWheel update after an iteration
that applied destroy operator dIdx and repair operator rIdx with the
given outcome. -/
def RouletteWheel.update (rw : RouletteWheel) (dIdx rIdx : ℕ)
    (o : Outcome) : RouletteWheel :=
  let s := rw.scores.getD o.idx 0
  { rw with dWeights := convexUpdate rw.decay s rw.dWeights dIdx,
            rWeights := convexUpdate rw.decay s rw.rWeights rIdx }

/-- Apply a sequence of RouletteWheel updates in order. -/
def applyUpdates (rw : RouletteWheel) : List (ℕ × ℕ × Outcome) → RouletteWheel
  | [] => rw
  | u :: rest => applyUpdates (rw.update u.1 u.2.1 u.2.2) rest

/-- Cumulative selection: the index whose weight interval contains the
target t, walking the weight list. -/
def cumPick : List ℚ → ℚ → ℕ
  | [], _ => 0
  | wHd :: rest, t => if t < wHd then 0 else cumPick rest (t - wHd) + 1

/-- Uniform selection among len indices from a draw u in [0,1). -/
def uniformPick (len : ℕ) (u : ℚ) : ℕ := Int.toNat ⌊u * (len : ℚ)⌋

/-- Modelled from the spec, section 4.2: sample one index proportional to
the weights from a uniform draw u in [0,1); when the entire weight vector
is zero the scheme falls back to uniform sampling (the select module is
not included under src/). -/
def pickIndex (ws : List ℚ) (u : ℚ) : ℕ :=
  if 0 < ws.sum then cumPick ws (u * ws.sum) else uniformPick ws.length u

end AlnsModel

namespace Knapsack

/-- The destroy rate constant of the feature notebook:
destroy_rate = 0.25. -/
def destroyRate : ℚ := 1 / 4

/-- Number of items currently selected: state.x.sum() for a binary
solution vector. -/
def countSelected {n : ℕ} (x : Fin n → Bool) : ℕ :=
  (List.finRange n).countP (fun i => x i)

/-- From the notebook: to_destroy(state) = int(destroy_rate * x.sum()),
the integer part of a quarter of the selected-item count. -/
def toDestroy {n : ℕ} (x : Fin n → Bool) : ℕ :=
  Int.toNat ⌊destroyRate * (countSelected x : ℚ)⌋

/-- From the notebook: merit = state.x * p / w, elementwise, with the
binary variable as the 0/1 factor. -/
def merit {n : ℕ} (p w : Fin n → ℚ) (x : Fin n → Bool) (i : Fin n) : ℚ :=
  (if x i then 1 else 0) * p i / w i

/-- Insert index a into a list already sorted by non-increasing key. -/
def insertDesc {n : ℕ} (key : Fin n → ℚ) (a : Fin n) :
    List (Fin n) → List (Fin n)
  | [] => [a]
  | b :: rest =>
    if key b ≤ key a then a :: b :: rest else b :: insertDesc key a rest

/-- Model of np.argsort(-merit): the item indices ordered by
non-increasing key, realized by insertion sort. -/
def argsortDesc {n : ℕ} (key : Fin n → ℚ) (l : List (Fin n)) :
    List (Fin n) :=
  l.foldr (insertDesc key) []

/-- From the notebook, worst_remove: sort indices by decreasing merit,
keep those whose index value exceeds zero (by_merit[by_merit > 0]), and
zero out the first to_destroy(state) of them.  The random source argument
is unused by the source function. -/
def worst_remove {n : ℕ} (p w : Fin n → ℚ) (x : Fin n → Bool)
    (_rnd : AlnsModel.Rng) : Fin n → Bool :=
  let byMerit := argsortDesc (merit p w x) (List.finRange n)
  let byMeritPos := byMerit.filter (fun i => decide (0 < i.val))
  let toRemove := byMeritPos.take (toDestroy x)
  fun i => if i ∈ toRemove then false else x i

/-- From the notebook: state.weight() = w @ x for the binary solution
vector. -/
def weightOf {n : ℕ} (w : Fin n → ℚ) (x : Fin n → Bool) : ℚ :=
  ∑ i, if x i then w i else 0

/-- From the notebook: unselected = np.argwhere(state.x == 0), the item
indices not currently in the knapsack. -/
def unselectedIndices {n : ℕ} (x : Fin n → Bool) : List (Fin n) :=
  (List.finRange n).filter (fun i => !(x i))

/-- From the notebook, the loop of random_repair: keep the candidates
that still fit (can_insert = w[unselected] <= W - state.weight()), insert
the first of them, and repeat until none fits.  Fuel bounds the number of
loop turns; any fuel beyond the candidate list length is never
consumed. -/
def repairLoop {n : ℕ} (w : Fin n → ℚ) (cap : ℚ) :
    ℕ → (Fin n → Bool) → List (Fin n) → (Fin n → Bool)
  | 0, x, _ => x
  | fuel + 1, x, unselected =>
    let us := unselected.filter (fun i => decide (w i ≤ cap - weightOf w x))
    match us with
    | [] => x
    | i :: rest => repairLoop w cap fuel (fun j => if j = i then true else x j) rest

/-- From the notebook, random_repair: shuffle the unselected indices
(the shuffled order is the list produced by the random source) and run
the insertion loop. -/
def random_repair {n : ℕ} (w : Fin n → ℚ) (cap : ℚ) (x : Fin n → Bool)
    (order : List (Fin n)) : Fin n → Bool :=
  repairLoop w cap (order.length + 1) x order

end Knapsack

namespace AlnsModel

/-- Modelled from the spec, section 4.3 Autofit: the
SimulatedAnnealing.autofit constructor with method exponential.  It
returns the triple (start temperature, end temperature, step): the start
temperature is minus worse times the absolute initial objective divided
by the logarithm of the acceptance probability, the end temperature is 1,
and the step is (end / start) to the power 1 / num_iters (the accept
module is not included under src/). -/
noncomputable def saAutofit (f0 worse acceptProb : ℝ) (numIters : ℕ) :
    ℝ × ℝ × ℝ :=
  let tStart := -worse * |f0| / Real.log acceptProb
  let tEnd : ℝ := 1
  (tStart, tEnd, (tEnd / tStart) ^ ((numIters : ℝ))⁻¹)

/-- Modelled from the spec, section 4.2: the AlphaUCB selection scheme
state over the num_destroy times num_repair grid of arms: the
exploration parameter, the score vector, and per arm the play count and
the empirical mean reward (the select module is not included under
src/). -/
structure AlphaUCB (nd nr : ℕ) where
  alpha : ℝ
  scores : Outcome → ℝ
  counts : Fin nd × Fin nr → ℕ
  means : Fin nd × Fin nr → ℝ

/-- Total play count T over all arms. -/
def AlphaUCB.totalCount {nd nr : ℕ} (s : AlphaUCB nd nr) : ℕ :=
  ∑ a : Fin nd × Fin nr, s.counts a

/-- Modelled from the spec: the upper-confidence index of an arm; an
unplayed arm has priority, treated as plus-infinity. -/
noncomputable def ucbVal {nd nr : ℕ} (s : AlphaUCB nd nr)
    (a : Fin nd × Fin nr) : WithTop ℝ :=
  if s.counts a = 0 then ⊤
  else ((s.means a + s.alpha *
    Real.sqrt ((1 + Real.log (1 + (s.totalCount : ℝ))) / (s.counts a : ℝ)) : ℝ) :
    WithTop ℝ)

/-- The list of all arms of the grid, in row-major order. -/
def allArms (nd nr : ℕ) : List (Fin nd × Fin nr) :=
  (List.finRange nd).flatMap fun d => (List.finRange nr).map fun r => (d, r)

/-- Modelled from the spec: AlphaUCB.choose takes the argmax of the
upper-confidence index over all arms, the first maximizer on ties. -/
noncomputable def AlphaUCB.chooseArm {nd nr : ℕ} (s : AlphaUCB nd nr) :
    Option (Fin nd × Fin nr) :=
  (allArms nd nr).argmax (ucbVal s)

/-- Modelled from the spec: AlphaUCB.update increments the play count of
the applied arm and updates its empirical mean incrementally with the
reward score of the observed outcome. -/
noncomputable def AlphaUCB.update {nd nr : ℕ} (s : AlphaUCB nd nr)
    (a : Fin nd × Fin nr) (o : Outcome) : AlphaUCB nd nr :=
  { s with
    counts := fun b => if b = a then s.counts b + 1 else s.counts b,
    means := fun b =>
      if b = a then (s.means b * (s.counts b : ℝ) + s.scores o) / ((s.counts b : ℝ) + 1)
      else s.means b }

/-- Modelled from the spec: the AlphaUCB scheme at construction: no arm
has been played. -/
def AlphaUCB.start (nd nr : ℕ) (alpha : ℝ) (scores : Outcome → ℝ) :
    AlphaUCB nd nr :=
  ⟨alpha, scores, fun _ => 0, fun _ => 0⟩

/-- The AlphaUCB state after t iterations of a run in which the outcome
observed at iteration k is outcomes k: each iteration chooses an arm and
updates it. -/
noncomputable def ucbRun {nd nr : ℕ} (s0 : AlphaUCB nd nr)
    (outcomes : ℕ → Outcome) : ℕ → AlphaUCB nd nr
  | 0 => s0
  | t + 1 =>
    let s := ucbRun s0 outcomes t
    match s.chooseArm with
    | some a => s.update a (outcomes t)
    | none => s

/-- The arm selected at iteration t of an AlphaUCB run. -/
noncomputable def chosenAt {nd nr : ℕ} (s0 : AlphaUCB nd nr)
    (outcomes : ℕ → Outcome) (t : ℕ) : Option (Fin nd × Fin nr) :=
  (ucbRun s0 outcomes t).chooseArm

/-- The first consumer of the random source inside one iteration: the
selection scheme, applied to the random source held at the top of the
iteration. -/
def selStage {S SelS AccS StopS : Type} (E : Engine S SelS AccS StopS)
    (st : LoopState S SelS AccS StopS) : (ℕ × ℕ) × Rng × SelS :=
  E.choose st.sel st.rng st.best st.curr

/-- The second consumer: the chosen destroy operator, applied to the
random source returned by the selection scheme. -/
def destroyStage {S SelS AccS StopS : Type} (E : Engine S SelS AccS StopS)
    (st : LoopState S SelS AccS StopS) : S × Rng :=
  (E.destroyOps.getD (selStage E st).1.1 (fun s r => (s, r))) st.curr
    (selStage E st).2.1

/-- The third consumer: the chosen repair operator, applied to the random
source returned by the destroy operator. -/
def repairStage {S SelS AccS StopS : Type} (E : Engine S SelS AccS StopS)
    (st : LoopState S SelS AccS StopS) : S × Rng :=
  (E.repairOps.getD (selStage E st).1.2 (fun s r => (s, r)))
    (destroyStage E st).1 (destroyStage E st).2

/-- The last consumer: the candidate classification, which hands the
random source returned by the repair operator to the acceptance criterion
when it is consulted. -/
def verdictStage {S SelS AccS StopS : Type} (E : Engine S SelS AccS StopS)
    (st : LoopState S SelS AccS StopS) : Verdict S AccS :=
  considerCandidate E.objective E.acceptFn st.best st.curr
    (repairStage E st).1 (repairStage E st).2 st.acc

/-- A small concrete engine instance over rational solution states, used
to exercise the engine theorems at concrete inputs. -/
def demoEngine : Engine ℚ Unit Unit ℕ :=
  { objective := fun q => q,
    destroyOps := [fun s r => (s + 1, r)],
    repairOps := [fun s r => (s - 2, r)],
    onBest := [],
    choose := fun u r _ _ => ((0, 0), r, u),
    updateSel := fun u _ _ _ _ => u,
    acceptFn := fun u r _ _ _ => ((false, r), u),
    stopFn := maxIterationsStop 3 }

/-- A concrete entry state for the demo engine. -/
def demoInit : LoopState ℚ Unit Unit ℕ :=
  initState 0 (fun _ => 0) () () 0

end AlnsModel

namespace AlnsModel

section ClassificationLemmas

variable {S AccS : Type} (f : S → ℚ)
variable (accFn : AccS → Rng → ℚ → ℚ → ℚ → (Bool × Rng) × AccS)
variable (best curr cand : S) (rng : Rng) (acc : AccS)

theorem considerCandidate_of_lt_best (h : f cand < f best) :
    considerCandidate f accFn best curr cand rng acc =
      ⟨Outcome.best, cand, cand, rng, acc, false⟩ := by
  simp [considerCandidate, h]

theorem considerCandidate_of_lt_curr (h1 : ¬ f cand < f best)
    (h2 : f cand < f curr) :
    considerCandidate f accFn best curr cand rng acc =
      ⟨Outcome.better, best, cand, rng, acc, false⟩ := by
  simp [considerCandidate, h1, h2]

theorem considerCandidate_of_accept (h1 : ¬ f cand < f best)
    (h2 : ¬ f cand < f curr)
    (h3 : (accFn acc rng (f best) (f curr) (f cand)).1.1 = true) :
    considerCandidate f accFn best curr cand rng acc =
      ⟨Outcome.accept, best, cand,
        (accFn acc rng (f best) (f curr) (f cand)).1.2,
        (accFn acc rng (f best) (f curr) (f cand)).2, true⟩ := by
  simp [considerCandidate, h1, h2, h3]

theorem considerCandidate_of_reject (h1 : ¬ f cand < f best)
    (h2 : ¬ f cand < f curr)
    (h3 : (accFn acc rng (f best) (f curr) (f cand)).1.1 = false) :
    considerCandidate f accFn best curr cand rng acc =
      ⟨Outcome.reject, best, curr,
        (accFn acc rng (f best) (f curr) (f cand)).1.2,
        (accFn acc rng (f best) (f curr) (f cand)).2, true⟩ := by
  simp [considerCandidate, h1, h2, h3]

theorem considerCandidate_consulted_iff :
    (considerCandidate f accFn best curr cand rng acc).consulted = true ↔
      f best ≤ f cand ∧ f curr ≤ f cand := by
  by_cases h1 : f cand < f best
  · rw [considerCandidate_of_lt_best f accFn best curr cand rng acc h1]
    exact ⟨fun h => Bool.noConfusion h, fun h => absurd h1 (not_lt.mpr h.1)⟩
  · by_cases h2 : f cand < f curr
    · rw [considerCandidate_of_lt_curr f accFn best curr cand rng acc h1 h2]
      exact ⟨fun h => Bool.noConfusion h, fun h => absurd h2 (not_lt.mpr h.2)⟩
    · cases h3 : (accFn acc rng (f best) (f curr) (f cand)).1.1 with
      | true =>
        rw [considerCandidate_of_accept f accFn best curr cand rng acc h1 h2 h3]
        exact ⟨fun _ => ⟨not_lt.mp h1, not_lt.mp h2⟩, fun _ => rfl⟩
      | false =>
        rw [considerCandidate_of_reject f accFn best curr cand rng acc h1 h2 h3]
        exact ⟨fun _ => ⟨not_lt.mp h1, not_lt.mp h2⟩, fun _ => rfl⟩

end ClassificationLemmas

end AlnsModel

namespace AlnsModel

/-- Claim C1: in each iteration of ALNS.iterate the candidate is
classified by strict comparison of objective values in the fixed order
BEST, BETTER, ACCEPT, REJECT: an objective strictly below the best gives
outcome BEST and replaces both best and current; otherwise strictly below
the current gives outcome BETTER and replaces current; otherwise the
acceptance criterion decides between ACCEPT (current replaced) and REJECT
(nothing replaced).  The acceptance criterion is consulted exactly when
the candidate is no better than both the current and the best solution,
hence never on a BEST or BETTER outcome, and equal objectives never count
as improvements. -/
theorem claim_C1_classification {S AccS : Type} (f : S → ℚ)
    (accFn : AccS → Rng → ℚ → ℚ → ℚ → (Bool × Rng) × AccS)
    (best curr cand : S) (rng : Rng) (acc : AccS) :
    (f cand < f best →
      considerCandidate f accFn best curr cand rng acc =
        ⟨Outcome.best, cand, cand, rng, acc, false⟩) ∧
    (¬ f cand < f best → f cand < f curr →
      considerCandidate f accFn best curr cand rng acc =
        ⟨Outcome.better, best, cand, rng, acc, false⟩) ∧
    (¬ f cand < f best → ¬ f cand < f curr →
      ((considerCandidate f accFn best curr cand rng acc).outcome = Outcome.accept ∧
          (considerCandidate f accFn best curr cand rng acc).newCurr = cand ∨
        (considerCandidate f accFn best curr cand rng acc).outcome = Outcome.reject ∧
          (considerCandidate f accFn best curr cand rng acc).newCurr = curr) ∧
      (considerCandidate f accFn best curr cand rng acc).newBest = best) ∧
    ((considerCandidate f accFn best curr cand rng acc).consulted = true ↔
      f best ≤ f cand ∧ f curr ≤ f cand) ∧
    (f cand = f best →
      (considerCandidate f accFn best curr cand rng acc).outcome ≠ Outcome.best) ∧
    (f cand = f curr →
      (considerCandidate f accFn best curr cand rng acc).outcome ≠ Outcome.better) := by
  refine ⟨?_, ?_, ?_, ?_, ?_, ?_⟩
  · intro h
    exact considerCandidate_of_lt_best f accFn best curr cand rng acc h
  · intro h1 h2
    exact considerCandidate_of_lt_curr f accFn best curr cand rng acc h1 h2
  · intro h1 h2
    cases h3 : (accFn acc rng (f best) (f curr) (f cand)).1.1 with
    | true =>
      rw [considerCandidate_of_accept f accFn best curr cand rng acc h1 h2 h3]
      exact ⟨Or.inl ⟨rfl, rfl⟩, rfl⟩
    | false =>
      rw [considerCandidate_of_reject f accFn best curr cand rng acc h1 h2 h3]
      exact ⟨Or.inr ⟨rfl, rfl⟩, rfl⟩
  · exact considerCandidate_consulted_iff f accFn best curr cand rng acc
  · intro heq
    have h1 : ¬ f cand < f best := by rw [heq]; exact lt_irrefl _
    by_cases h2 : f cand < f curr
    · rw [considerCandidate_of_lt_curr f accFn best curr cand rng acc h1 h2]
      simp
    · cases h3 : (accFn acc rng (f best) (f curr) (f cand)).1.1 with
      | true =>
        rw [considerCandidate_of_accept f accFn best curr cand rng acc h1 h2 h3]
        simp
      | false =>
        rw [considerCandidate_of_reject f accFn best curr cand rng acc h1 h2 h3]
        simp
  · intro heq
    by_cases h1 : f cand < f best
    · rw [considerCandidate_of_lt_best f accFn best curr cand rng acc h1]
      simp
    · have h2 : ¬ f cand < f curr := by rw [heq]; exact lt_irrefl _
      cases h3 : (accFn acc rng (f best) (f curr) (f cand)).1.1 with
      | true =>
        rw [considerCandidate_of_accept f accFn best curr cand rng acc h1 h2 h3]
        simp
      | false =>
        rw [considerCandidate_of_reject f accFn best curr cand rng acc h1 h2 h3]
        simp

/-- Concrete instance of claim C1: a strictly improving candidate is
classified BEST and installed as both best and current without consulting
the acceptance criterion. -/
theorem claim_C1_classification_witness :
    considerCandidate (fun q : ℚ => q)
        (fun (u : Unit) (r : Rng) (_ _ _ : ℚ) => ((false, r), u))
        (5 : ℚ) (5 : ℚ) (3 : ℚ) ⟨fun _ => 0, 0⟩ () =
      ⟨Outcome.best, 3, 3, ⟨fun _ => 0, 0⟩, (), false⟩ :=
  (claim_C1_classification (fun q : ℚ => q)
    (fun (u : Unit) (r : Rng) (_ _ _ : ℚ) => ((false, r), u))
    5 5 3 ⟨fun _ => 0, 0⟩ ()).1 (by norm_num)

end AlnsModel

namespace AlnsModel

theorem considerCandidate_newBest_le {S AccS : Type} (f : S → ℚ)
    (accFn : AccS → Rng → ℚ → ℚ → ℚ → (Bool × Rng) × AccS)
    (best curr cand : S) (rng : Rng) (acc : AccS) :
    f (considerCandidate f accFn best curr cand rng acc).newBest ≤ f best := by
  by_cases h1 : f cand < f best
  · rw [considerCandidate_of_lt_best f accFn best curr cand rng acc h1]
    exact le_of_lt h1
  · by_cases h2 : f cand < f curr
    · rw [considerCandidate_of_lt_curr f accFn best curr cand rng acc h1 h2]
    · cases h3 : (accFn acc rng (f best) (f curr) (f cand)).1.1 with
      | true =>
        rw [considerCandidate_of_accept f accFn best curr cand rng acc h1 h2 h3]
      | false =>
        rw [considerCandidate_of_reject f accFn best curr cand rng acc h1 h2 h3]

theorem fireCallbacks_fst_le {S : Type} (f : S → ℚ) :
    ∀ (cbs : List (S → Rng → Option S × Rng)) (best curr : S) (rng : Rng),
      f (fireCallbacks f cbs best curr rng).1 ≤ f best := by
  intro cbs
  induction cbs with
  | nil => intro best curr rng; exact le_rfl
  | cons cb rest ih =>
    intro best curr rng
    simp only [fireCallbacks]
    cases hres : (cb best rng).1 with
    | none => simp only [hres]; exact ih best curr _
    | some s =>
      simp only [hres]
      by_cases hlt : f s < f best
      · simp only [if_pos hlt]
        exact le_trans (ih s s _) (le_of_lt hlt)
      · simp only [if_neg hlt]
        exact ih best curr _

theorem step_best_le {S SelS AccS StopS : Type} (E : Engine S SelS AccS StopS)
    (st : LoopState S SelS AccS StopS) :
    E.objective (step E st).best ≤ E.objective st.best := by
  simp only [step]
  split_ifs with h
  · exact le_trans (fireCallbacks_fst_le E.objective E.onBest _ _ _)
      (considerCandidate_newBest_le E.objective E.acceptFn st.best st.curr _ _ st.acc)
  · exact considerCandidate_newBest_le E.objective E.acceptFn st.best st.curr _ _ st.acc

theorem runOne_best_le {S SelS AccS StopS : Type} (E : Engine S SelS AccS StopS)
    (st : LoopState S SelS AccS StopS) :
    E.objective (runOne E st).best ≤ E.objective st.best := by
  simp only [runOne]
  split_ifs with h1 h2
  · exact le_rfl
  · exact le_rfl
  · exact step_best_le E _

theorem run_add {S SelS AccS StopS : Type} (E : Engine S SelS AccS StopS)
    (st : LoopState S SelS AccS StopS) (i k : ℕ) :
    run E st (i + k) = run E (run E st i) k := by
  induction k with
  | zero => rfl
  | succ k ih =>
    show run E st ((i + k) + 1) = _
    simp only [run]
    rw [ih]

theorem run_best_le {S SelS AccS StopS : Type} (E : Engine S SelS AccS StopS)
    (st : LoopState S SelS AccS StopS) (k : ℕ) :
    E.objective (run E st k).best ≤ E.objective st.best := by
  induction k with
  | zero => exact le_rfl
  | succ k ih => exact le_trans (runOne_best_le E (run E st k)) ih

/-- Claim C2: over any run of the modelled ALNS.iterate loop, the
objective of the best state is monotonically non-increasing across
iterations: for all observation points i at most j, the best objective
after j loop turns is at most the best objective after i loop turns. -/
theorem claim_C2_best_monotone {S SelS AccS StopS : Type}
    (E : Engine S SelS AccS StopS) (st : LoopState S SelS AccS StopS)
    (i j : ℕ) (h : i ≤ j) :
    E.objective (run E st j).best ≤ E.objective (run E st i).best := by
  obtain ⟨k, rfl⟩ := Nat.exists_eq_add_of_le h
  rw [run_add]
  exact run_best_le E (run E st i) k

/-- Concrete instance of claim C2 on the demo engine. -/
theorem claim_C2_best_monotone_witness :
    demoEngine.objective (run demoEngine demoInit 2).best ≤
      demoEngine.objective (run demoEngine demoInit 1).best :=
  claim_C2_best_monotone demoEngine demoInit 1 2 (by norm_num)

end AlnsModel

namespace AlnsModel

theorem step_stp {S SelS AccS StopS : Type} (E : Engine S SelS AccS StopS)
    (st : LoopState S SelS AccS StopS) : (step E st).stp = st.stp := rfl

theorem step_halted_eq {S SelS AccS StopS : Type} (E : Engine S SelS AccS StopS)
    (st : LoopState S SelS AccS StopS) : (step E st).halted = st.halted := rfl

theorem step_log {S SelS AccS StopS : Type} (E : Engine S SelS AccS StopS)
    (st : LoopState S SelS AccS StopS) :
    (step E st).log = st.log ++
      [((selStage E st).1.1, (selStage E st).1.2, (verdictStage E st).outcome)] := rfl

theorem step_rng_chain {S SelS AccS StopS : Type} (E : Engine S SelS AccS StopS)
    (st : LoopState S SelS AccS StopS) :
    (step E st).rng =
      (if (verdictStage E st).outcome = Outcome.best then
          (fireCallbacks E.objective E.onBest (verdictStage E st).newBest
            (verdictStage E st).newCurr (verdictStage E st).rng).2.2
        else (verdictStage E st).rng) := by
  simp only [step, selStage, destroyStage, repairStage, verdictStage]
  split_ifs with h
  · rfl
  · rfl

/-- Claim C3: ALNS.iterate is deterministic: with identical inputs and a
seed producing the same stream of draws, two runs have identical best
objective trajectories; and within each iteration the random source is
threaded in the fixed order selection scheme, destroy operator, repair
operator, acceptance criterion, as recorded by the stage functions: the
iteration ends with the random source produced by the verdict stage,
which feeds the repair stage output to the acceptance criterion, the
repair stage consuming the destroy stage output, the destroy stage
consuming the selection stage output. -/
theorem claim_C3_determinism {S SelS AccS StopS : Type}
    (E : Engine S SelS AccS StopS) (s0 : S) (g1 g2 : ℕ → ℚ)
    (sel0 : SelS) (acc0 : AccS) (stp0 : StopS)
    (hg : ∀ i, g1 i = g2 i) :
    (∀ k, E.objective (run E (initState s0 g1 sel0 acc0 stp0) k).best =
      E.objective (run E (initState s0 g2 sel0 acc0 stp0) k).best) ∧
    (∀ st : LoopState S SelS AccS StopS,
      (step E st).rng =
        (if (verdictStage E st).outcome = Outcome.best then
            (fireCallbacks E.objective E.onBest (verdictStage E st).newBest
              (verdictStage E st).newCurr (verdictStage E st).rng).2.2
          else (verdictStage E st).rng)) ∧
    (∀ st : LoopState S SelS AccS StopS,
      (step E st).log = st.log ++
        [((selStage E st).1.1, (selStage E st).1.2, (verdictStage E st).outcome)]) := by
  have hgg : g1 = g2 := funext hg
  subst hgg
  exact ⟨fun _ => rfl, fun st => step_rng_chain E st, fun st => step_log E st⟩

/-- Concrete instance of claim C3 on the demo engine. -/
theorem claim_C3_determinism_witness :
    demoEngine.objective
        (run demoEngine (initState 0 (fun _ => (0 : ℚ)) () () 0) 5).best =
      demoEngine.objective
        (run demoEngine (initState 0 (fun _ => (0 : ℚ)) () () 0) 5).best ∧
    (step demoEngine demoInit).log = demoInit.log ++
      [((selStage demoEngine demoInit).1.1, (selStage demoEngine demoInit).1.2,
        (verdictStage demoEngine demoInit).outcome)] :=
  ⟨(claim_C3_determinism demoEngine 0 (fun _ => (0 : ℚ)) (fun _ => (0 : ℚ))
      () () 0 (fun _ => rfl)).1 5,
   (claim_C3_determinism demoEngine 0 (fun _ => (0 : ℚ)) (fun _ => (0 : ℚ))
      () () 0 (fun _ => rfl)).2.2 demoInit⟩

theorem runOne_halted {S SelS AccS StopS : Type} (E : Engine S SelS AccS StopS)
    (st : LoopState S SelS AccS StopS) (h : st.halted = true) :
    runOne E st = st := by
  simp [runOne, h]

theorem run_halted {S SelS AccS StopS : Type} (E : Engine S SelS AccS StopS)
    (st : LoopState S SelS AccS StopS) (h : st.halted = true) (k : ℕ) :
    run E st k = st := by
  induction k with
  | zero => rfl
  | succ k ih => simp only [run]; rw [ih, runOne_halted E st h]

theorem runOne_go {S SelS AccS StopS : Type} (E : Engine S SelS AccS StopS)
    (st : LoopState S SelS AccS StopS) (h : st.halted = false)
    (hsc : (E.stopFn st.stp st.rng (E.objective st.best) (E.objective st.curr)).1 = false) :
    runOne E st = step E { st with
      stp := (E.stopFn st.stp st.rng (E.objective st.best) (E.objective st.curr)).2 } := by
  simp [runOne, h, hsc]

theorem runOne_stop {S SelS AccS StopS : Type} (E : Engine S SelS AccS StopS)
    (st : LoopState S SelS AccS StopS) (h : st.halted = false)
    (hsc : (E.stopFn st.stp st.rng (E.objective st.best) (E.objective st.curr)).1 = true) :
    runOne E st = { st with
      stp := (E.stopFn st.stp st.rng (E.objective st.best) (E.objective st.curr)).2,
      halted := true } := by
  simp [runOne, h, hsc]

theorem maxIter_run_inv {S SelS AccS : Type} (n : ℕ) (E : Engine S SelS AccS ℕ)
    (hstop : E.stopFn = maxIterationsStop n) (st0 : LoopState S SelS AccS ℕ)
    (hstp : st0.stp = 0) (hlog : st0.log = []) (hh : st0.halted = false) :
    ∀ k, k ≤ n → (run E st0 k).halted = false ∧ (run E st0 k).stp = k ∧
      (run E st0 k).log.length = k := by
  intro k
  induction k with
  | zero =>
    intro _
    refine ⟨hh, hstp, ?_⟩
    show st0.log.length = 0
    rw [hlog]
    rfl
  | succ k ih =>
    intro hk
    obtain ⟨ih1, ih2, ih3⟩ := ih (Nat.le_of_succ_le hk)
    have hklt : ¬ n ≤ k := Nat.not_le.mpr (Nat.lt_of_succ_le hk)
    have hfn : E.stopFn (run E st0 k).stp (run E st0 k).rng
        (E.objective (run E st0 k).best) (E.objective (run E st0 k).curr) =
        (decide (n ≤ k), k + 1) := by rw [hstop, ih2]; rfl
    have hrw : run E st0 (k + 1) =
        step E { run E st0 k with stp := k + 1 } := by
      show runOne E (run E st0 k) = _
      rw [runOne_go E (run E st0 k) ih1 (by rw [hfn]; exact decide_eq_false hklt), hfn]
    rw [hrw]
    refine ⟨?_, ?_, ?_⟩
    · rw [step_halted_eq]
      exact ih1
    · rw [step_stp]
    · rw [step_log]
      simp only [List.length_append, List.length_singleton]
      exact congrArg (· + 1) ih3

end AlnsModel

namespace AlnsModel

/-- Claim C7: with the MaxIterations(n) stopping criterion the modelled
ALNS.iterate executes exactly n iterations and then halts: observed at
any point after the stopping check following iteration n, the loop is
halted and the statistics hold exactly n records; in the boundary case
n = 0 the final state is the entry state untouched except for the
stopping bookkeeping: best and current are the initial solution, the
statistics are empty, and the random source never advanced, so no destroy
or repair operator was called. -/
theorem claim_C7_max_iterations {S SelS AccS : Type} (n : ℕ)
    (E : Engine S SelS AccS ℕ) (hstop : E.stopFn = maxIterationsStop n)
    (s0 : S) (g : ℕ → ℚ) (sel0 : SelS) (acc0 : AccS) (m : ℕ)
    (hm : n + 1 ≤ m) :
    (run E (initState s0 g sel0 acc0 0) m).halted = true ∧
    (run E (initState s0 g sel0 acc0 0) m).log.length = n ∧
    (n = 0 → run E (initState s0 g sel0 acc0 0) m =
      { initState s0 g sel0 acc0 0 with stp := 1, halted := true }) := by
  obtain ⟨j, rfl⟩ : ∃ j, m = (n + 1) + j := ⟨m - (n + 1), by omega⟩
  have hinv := maxIter_run_inv n E hstop (initState s0 g sel0 acc0 0)
    rfl rfl rfl n (le_refl n)
  have hfn : E.stopFn (run E (initState s0 g sel0 acc0 0) n).stp
      (run E (initState s0 g sel0 acc0 0) n).rng
      (E.objective (run E (initState s0 g sel0 acc0 0) n).best)
      (E.objective (run E (initState s0 g sel0 acc0 0) n).curr) =
      (decide (n ≤ n), n + 1) := by
    rw [hstop, hinv.2.1]
    rfl
  have hhalt : run E (initState s0 g sel0 acc0 0) (n + 1) =
      { run E (initState s0 g sel0 acc0 0) n with stp := n + 1, halted := true } := by
    show runOne E (run E (initState s0 g sel0 acc0 0) n) = _
    rw [runOne_stop E (run E (initState s0 g sel0 acc0 0) n) hinv.1
      (by rw [hfn]; exact decide_eq_true (le_refl n)), hfn]
  rw [run_add, hhalt, run_halted E _ rfl j]
  refine ⟨rfl, ?_, ?_⟩
  · show (run E (initState s0 g sel0 acc0 0) n).log.length = n
    exact hinv.2.2
  · intro hn
    subst hn
    rfl

/-- Concrete instance of claim C7 on the demo engine, whose stopping
criterion is MaxIterations(3), observed at point 4. -/
theorem claim_C7_max_iterations_witness :
    (run demoEngine (initState 0 (fun _ => (0 : ℚ)) () () 0) 4).halted = true ∧
    (run demoEngine (initState 0 (fun _ => (0 : ℚ)) () () 0) 4).log.length = 3 ∧
    (3 = 0 → run demoEngine (initState 0 (fun _ => (0 : ℚ)) () () 0) 4 =
      { initState 0 (fun _ => (0 : ℚ)) () () 0 with stp := 1, halted := true }) :=
  claim_C7_max_iterations 3 demoEngine rfl 0 (fun _ => (0 : ℚ)) () () 4
    (by norm_num)

end AlnsModel

namespace AlnsModel

/-- Claim C6: a candidate whose objective is not a finite real number
(NaN or plus infinity) is treated as outcome REJECT without invoking the
acceptance criterion (the consulted flag stays false, so the criterion
never sees a non-finite candidate), and the search continues (the guard
returns normally) unless the engine is in strict mode, in which case
InvalidObjectiveError propagates. -/
theorem claim_C6_nonfinite_reject (strict : Bool) (cand : FObj)
    (classify : ℚ → Outcome × Bool) (h : cand.isFinite = false) :
    (strict = false →
      evalCandidateGuard strict cand classify =
        Except.ok (Outcome.reject, false)) ∧
    (strict = true →
      evalCandidateGuard strict cand classify =
        Except.error EngineError.invalidObjective) := by
  cases cand with
  | fin q => exact absurd h (by simp [FObj.isFinite])
  | nan =>
    constructor
    · intro hs
      simp [evalCandidateGuard, hs]
    · intro hs
      simp [evalCandidateGuard, hs]
  | posInf =>
    constructor
    · intro hs
      simp [evalCandidateGuard, hs]
    · intro hs
      simp [evalCandidateGuard, hs]

/-- Concrete instance of claim C6: a NaN candidate is rejected without
consulting the acceptance criterion in non-strict mode. -/
theorem claim_C6_nonfinite_reject_witness :
    evalCandidateGuard false FObj.nan (fun _ => (Outcome.accept, true)) =
      Except.ok (Outcome.reject, false) :=
  (claim_C6_nonfinite_reject false FObj.nan (fun _ => (Outcome.accept, true))
    (by rfl)).1 rfl

end AlnsModel

namespace AlnsModel

theorem getD_nonneg (ws : List ℚ) (h : ∀ x ∈ ws, 0 ≤ x) (i : ℕ) :
    0 ≤ ws.getD i 0 := by
  by_cases hi : i < ws.length
  · rw [List.getD_eq_getElem ws 0 hi]
    exact h _ (List.getElem_mem hi)
  · rw [List.getD_eq_default ws 0 (Nat.le_of_not_lt hi)]

theorem convexUpdate_nonneg (θ s : ℚ) (ws : List ℚ) (i : ℕ)
    (hθ0 : 0 ≤ θ) (hθ1 : θ ≤ 1) (hs : 0 ≤ s)
    (hws : ∀ x ∈ ws, 0 ≤ x) :
    ∀ x ∈ convexUpdate θ s ws i, 0 ≤ x := by
  intro x hx
  rcases List.mem_or_eq_of_mem_set hx with h | h
  · exact hws x h
  · rw [h]
    exact add_nonneg (mul_nonneg hθ0 (getD_nonneg ws hws i))
      (mul_nonneg (by linarith) hs)

theorem applyUpdates_nonneg (rw : RouletteWheel)
    (us : List (ℕ × ℕ × Outcome))
    (hθ0 : 0 ≤ rw.decay) (hθ1 : rw.decay ≤ 1)
    (hsc : ∀ x ∈ rw.scores, 0 ≤ x)
    (hd : ∀ x ∈ rw.dWeights, 0 ≤ x)
    (hr : ∀ x ∈ rw.rWeights, 0 ≤ x) :
    (∀ x ∈ (applyUpdates rw us).dWeights, 0 ≤ x) ∧
    (∀ x ∈ (applyUpdates rw us).rWeights, 0 ≤ x) := by
  induction us generalizing rw with
  | nil => exact ⟨hd, hr⟩
  | cons u rest ih =>
    have hsnn : 0 ≤ rw.scores.getD (u.2.2).idx 0 := getD_nonneg rw.scores hsc _
    exact ih (rw.update u.1 u.2.1 u.2.2) hθ0 hθ1 hsc
      (convexUpdate_nonneg rw.decay _ rw.dWeights u.1 hθ0 hθ1 hsnn hd)
      (convexUpdate_nonneg rw.decay _ rw.rWeights u.2.1 hθ0 hθ1 hsnn hr)

theorem uniformPick_lt (len : ℕ) (u : ℚ) (h0 : 0 ≤ u) (h1 : u < 1)
    (hlen : 0 < len) : uniformPick len u < len := by
  have hmul : u * (len : ℚ) < (len : ℚ) := by
    calc u * (len : ℚ) < 1 * (len : ℚ) := by
          exact mul_lt_mul_of_pos_right h1 (by exact_mod_cast hlen)
      _ = (len : ℚ) := one_mul _
  have hfl : ⌊u * (len : ℚ)⌋ < (len : ℤ) := by
    rw [Int.floor_lt]
    exact_mod_cast hmul
  have hfl0 : 0 ≤ ⌊u * (len : ℚ)⌋ :=
    Int.floor_nonneg.mpr (mul_nonneg h0 (by positivity))
  unfold uniformPick
  omega

/-- Claim C5: RouletteWheel weight vectors are initialized to 1 and
updated by the convex combination with decay θ and the outcome score;
for every sequence of updates with non-negative scores and θ between 0
and 1 all weights stay non-negative (they are rationals, hence finite by
construction); and when an entire weight vector is zero, index selection
falls back to uniform sampling and still returns a valid index instead of
erroring. -/
theorem claim_C5_roulette_wheel :
    (∀ (sc : List ℚ) (θ : ℚ) (nd nr : ℕ),
      (RouletteWheel.init sc θ nd nr).dWeights = List.replicate nd 1 ∧
      (RouletteWheel.init sc θ nd nr).rWeights = List.replicate nr 1) ∧
    (∀ (rw : RouletteWheel) (dIdx rIdx : ℕ) (o : Outcome),
      (rw.update dIdx rIdx o).dWeights =
        rw.dWeights.set dIdx (rw.decay * rw.dWeights.getD dIdx 0 +
          (1 - rw.decay) * rw.scores.getD o.idx 0)) ∧
    (∀ (rw : RouletteWheel) (us : List (ℕ × ℕ × Outcome)),
      0 ≤ rw.decay → rw.decay ≤ 1 → (∀ x ∈ rw.scores, 0 ≤ x) →
      (∀ x ∈ rw.dWeights, 0 ≤ x) → (∀ x ∈ rw.rWeights, 0 ≤ x) →
      (∀ x ∈ (applyUpdates rw us).dWeights, 0 ≤ x) ∧
      (∀ x ∈ (applyUpdates rw us).rWeights, 0 ≤ x)) ∧
    (∀ (ws : List ℚ) (u : ℚ), (∀ x ∈ ws, x = 0) →
      pickIndex ws u = uniformPick ws.length u ∧
      (0 ≤ u → u < 1 → 0 < ws.length → pickIndex ws u < ws.length)) := by
  refine ⟨fun sc θ nd nr => ⟨rfl, rfl⟩, fun rw dIdx rIdx o => rfl, ?_, ?_⟩
  · intro rw us hθ0 hθ1 hsc hd hr
    exact applyUpdates_nonneg rw us hθ0 hθ1 hsc hd hr
  · intro ws u hzero
    have hsum : ws.sum = 0 := List.sum_eq_zero hzero
    have hpick : pickIndex ws u = uniformPick ws.length u := by
      unfold pickIndex
      rw [hsum]
      exact if_neg (lt_irrefl 0)
    refine ⟨hpick, fun h0 h1 hlen => ?_⟩
    rw [hpick]
    exact uniformPick_lt ws.length u h0 h1 hlen

/-- Concrete instance of claim C5: the S6 scenario of the spec: scores
all zero and decay zero drive the weights to zero after one update, and
selection still returns a valid index through the uniform fallback. -/
theorem claim_C5_roulette_wheel_witness :
    (∀ x ∈ (applyUpdates (RouletteWheel.init [0, 0, 0, 0] 0 2 1)
      [(0, 0, Outcome.best)]).dWeights, 0 ≤ x) ∧
    pickIndex [(0 : ℚ), 0] (1/2) = uniformPick 2 (1/2) ∧
    pickIndex [(0 : ℚ), 0] (1/2) < 2 := by
  refine ⟨((claim_C5_roulette_wheel.2.2.1 (RouletteWheel.init [0, 0, 0, 0] 0 2 1)
    [(0, 0, Outcome.best)] (le_refl 0) zero_le_one ?_ ?_ ?_)).1, ?_, ?_⟩
  · intro x hx
    simp only [RouletteWheel.init] at hx
    fin_cases hx
    all_goals norm_num
  · intro x hx
    simp only [RouletteWheel.init] at hx
    fin_cases hx
    all_goals norm_num
  · intro x hx
    simp only [RouletteWheel.init] at hx
    fin_cases hx
    all_goals norm_num
  · exact ((claim_C5_roulette_wheel.2.2.2 [(0 : ℚ), 0] (1/2)
      (by intro x hx; fin_cases hx; rfl; rfl))).1
  · exact ((claim_C5_roulette_wheel.2.2.2 [(0 : ℚ), 0] (1/2)
      (by intro x hx; fin_cases hx; rfl; rfl))).2 (by norm_num) (by norm_num)
      (by norm_num)

end AlnsModel

namespace Knapsack

/-- Claim C9: the worst_remove destroy operator never removes the item at
index 0: for every state and random source, the returned assignment at
index 0 equals the input assignment at index 0, because the sorted
candidate list is filtered by array index (by_merit[by_merit > 0]), which
excludes index 0 from removal regardless of its profit-to-weight
ratio. -/
theorem claim_C9_worst_remove_keeps_item0 {n : ℕ} (p w : Fin n → ℚ)
    (x : Fin n → Bool) (rnd : AlnsModel.Rng) (h : 0 < n) :
    worst_remove p w x rnd ⟨0, h⟩ = x ⟨0, h⟩ := by
  simp only [worst_remove]
  rw [if_neg]
  intro hmem
  have h2 := List.mem_of_mem_take hmem
  have h3 := List.of_mem_filter h2
  simp at h3

/-- Concrete instance of claim C9 with three items all selected. -/
theorem claim_C9_worst_remove_keeps_item0_witness :
    worst_remove (fun _ : Fin 3 => (1 : ℚ)) (fun _ => (1 : ℚ))
        (fun _ => true) ⟨fun _ => 0, 0⟩ ⟨0, by norm_num⟩ =
      (fun _ : Fin 3 => true) ⟨0, by norm_num⟩ :=
  claim_C9_worst_remove_keeps_item0 (fun _ => (1 : ℚ)) (fun _ => (1 : ℚ))
    (fun _ => true) ⟨fun _ => 0, 0⟩ (by norm_num)

theorem weightOf_set_le {n : ℕ} (w : Fin n → ℚ) (x : Fin n → Bool)
    (i : Fin n) (hw : 0 ≤ w i) :
    weightOf w (fun j => if j = i then true else x j) ≤ weightOf w x + w i := by
  unfold weightOf
  rw [Finset.sum_eq_sum_diff_singleton_add (Finset.mem_univ i)
        (fun j => if (if j = i then true else x j) then w j else 0),
      Finset.sum_eq_sum_diff_singleton_add (Finset.mem_univ i)
        (fun j => if x j then w j else 0)]
  have hcongr : ∑ j ∈ Finset.univ \ {i},
      (if (if j = i then true else x j) then w j else 0) =
      ∑ j ∈ Finset.univ \ {i}, (if x j then w j else 0) := by
    apply Finset.sum_congr rfl
    intro j hj
    have hne : j ≠ i := by
      intro hji
      rw [Finset.mem_sdiff] at hj
      exact hj.2 (Finset.mem_singleton.mpr hji)
    rw [if_neg hne]
  rw [hcongr]
  have hi0 : (0 : ℚ) ≤ (if x i then w i else 0) := by
    by_cases hxi : x i
    · simpa [hxi] using hw
    · simp [hxi]
  have hii : (if (if i = i then true else x i) = true then w i else 0) = w i := by
    simp
  rw [hii]
  linarith

theorem repairLoop_weight_le {n : ℕ} (w : Fin n → ℚ) (cap : ℚ)
    (hw : ∀ i, 0 ≤ w i) :
    ∀ (fuel : ℕ) (x : Fin n → Bool) (us : List (Fin n)),
      weightOf w x ≤ cap → weightOf w (repairLoop w cap fuel x us) ≤ cap := by
  intro fuel
  induction fuel with
  | zero => intro x us hx; exact hx
  | succ fuel ih =>
    intro x us hx
    simp only [repairLoop]
    cases hus : us.filter (fun i => decide (w i ≤ cap - weightOf w x)) with
    | nil => exact hx
    | cons i rest =>
      show weightOf w
        (repairLoop w cap fuel (fun j => if j = i then true else x j) rest) ≤ cap
      apply ih
      have hmemf : i ∈ us.filter (fun i => decide (w i ≤ cap - weightOf w x)) := by
        rw [hus]
        exact List.mem_cons_self i rest
      have hfit : w i ≤ cap - weightOf w x :=
        of_decide_eq_true (List.mem_filter.mp hmemf).2
      calc weightOf w (fun j => if j = i then true else x j)
          ≤ weightOf w x + w i := weightOf_set_le w x i (hw i)
        _ ≤ cap := by linarith

/-- Claim C10: the random_repair operator preserves the knapsack capacity
constraint: for non-negative item weights, every input state of weight at
most the capacity, and every shuffled ordering of the unselected indices
produced by the random source, the returned state has weight at most the
capacity, because each loop turn re-filters the remaining candidates
against the remaining capacity before inserting. -/
theorem claim_C10_repair_capacity {n : ℕ} (w : Fin n → ℚ) (cap : ℚ)
    (x : Fin n → Bool) (order : List (Fin n)) (hw : ∀ i, 0 ≤ w i)
    (_hperm : order.Perm (unselectedIndices x))
    (hcap : weightOf w x ≤ cap) :
    weightOf w (random_repair w cap x order) ≤ cap :=
  repairLoop_weight_le w cap hw (order.length + 1) x order hcap

/-- Concrete instance of claim C10 with two items of unit weight and
capacity two, starting from the empty knapsack. -/
theorem claim_C10_repair_capacity_witness :
    weightOf (fun _ : Fin 2 => (1 : ℚ))
      (random_repair (fun _ => (1 : ℚ)) 2 (fun _ => false)
        (unselectedIndices (fun _ => false))) ≤ 2 :=
  claim_C10_repair_capacity (fun _ => (1 : ℚ)) 2 (fun _ => false)
    (unselectedIndices (fun _ => false)) (fun _ => by norm_num)
    (List.Perm.refl _) (by norm_num [weightOf])

end Knapsack

namespace AlnsModel

/-- Claim C4: SimulatedAnnealing.autofit with method exponential computes
the start temperature as minus worse times the absolute initial objective
divided by the logarithm of the acceptance probability, the end
temperature 1, and the step (end / start) to the power 1 / num_iters; in
particular for initial objective 1000, worse 0.05, acceptance probability
0.5 and 8000 iterations, the start temperature lies strictly between
72.13 and 72.14 (approximately 50 / log 2), and the step lies between the
corresponding powers (1/72.14) and (1/72.13) to the 1/8000. -/
theorem claim_C4_sa_autofit :
    (∀ (f0 worse p : ℝ) (numIters : ℕ),
      saAutofit f0 worse p numIters =
        (-worse * |f0| / Real.log p, 1,
          (1 / (-worse * |f0| / Real.log p)) ^ ((numIters : ℝ))⁻¹)) ∧
    (saAutofit 1000 0.05 0.5 8000).2.1 = 1 ∧
    72.13 < (saAutofit 1000 0.05 0.5 8000).1 ∧
    (saAutofit 1000 0.05 0.5 8000).1 < 72.14 ∧
    (1 / (72.14 : ℝ)) ^ ((8000 : ℝ))⁻¹ ≤ (saAutofit 1000 0.05 0.5 8000).2.2 ∧
    (saAutofit 1000 0.05 0.5 8000).2.2 ≤ (1 / (72.13 : ℝ)) ^ ((8000 : ℝ))⁻¹ := by
  have hlog2pos : (0 : ℝ) < Real.log 2 := by
    have := Real.log_two_gt_d9
    linarith
  have habs : |(1000 : ℝ)| = 1000 := abs_of_nonneg (by norm_num)
  have hlhalf : Real.log (0.5 : ℝ) = -Real.log 2 := by
    rw [show (0.5 : ℝ) = 2⁻¹ by norm_num, Real.log_inv]
  have hstart : -(0.05 : ℝ) * |(1000 : ℝ)| / Real.log 0.5 = 50 / Real.log 2 := by
    rw [habs, hlhalf, show -(0.05 : ℝ) * 1000 = -50 by norm_num, neg_div_neg_eq]
  have hfst : (saAutofit 1000 0.05 0.5 8000).1 = 50 / Real.log 2 := by
    show -(0.05 : ℝ) * |(1000 : ℝ)| / Real.log 0.5 = 50 / Real.log 2
    exact hstart
  have hsndd : (saAutofit 1000 0.05 0.5 8000).2.2 =
      (1 / (50 / Real.log 2)) ^ ((8000 : ℝ))⁻¹ := by
    show ((1 : ℝ) / (-(0.05 : ℝ) * |(1000 : ℝ)| / Real.log 0.5)) ^
        (((8000 : ℕ) : ℝ))⁻¹ = (1 / (50 / Real.log 2)) ^ ((8000 : ℝ))⁻¹
    rw [hstart]
    norm_num
  have h1 : (72.13 : ℝ) < 50 / Real.log 2 := by
    rw [lt_div_iff₀ hlog2pos]
    linarith [Real.log_two_lt_d9]
  have h2 : 50 / Real.log 2 < (72.14 : ℝ) := by
    rw [div_lt_iff₀ hlog2pos]
    linarith [Real.log_two_gt_d9]
  have hspos : (0 : ℝ) < 50 / Real.log 2 := by positivity
  have hepos : (0 : ℝ) ≤ ((8000 : ℝ))⁻¹ := by norm_num
  refine ⟨fun f0 worse p numIters => rfl, rfl, ?_, ?_, ?_, ?_⟩
  · rw [hfst]
    exact h1
  · rw [hfst]
    exact h2
  · rw [hsndd]
    exact Real.rpow_le_rpow (by norm_num)
      (one_div_le_one_div_of_le hspos (le_of_lt h2)) hepos
  · rw [hsndd]
    exact Real.rpow_le_rpow (by positivity)
      (one_div_le_one_div_of_le (by norm_num) (le_of_lt h1)) hepos

end AlnsModel

namespace AlnsModel

theorem mem_allArms {nd nr : ℕ} (a : Fin nd × Fin nr) : a ∈ allArms nd nr := by
  obtain ⟨d, r⟩ := a
  simp only [allArms, List.mem_flatMap, List.mem_map]
  exact ⟨d, List.mem_finRange d, r, List.mem_finRange r, rfl⟩

theorem chooseArm_counts_zero {nd nr : ℕ} (s : AlphaUCB nd nr)
    (a0 : Fin nd × Fin nr) (h0 : s.counts a0 = 0) :
    ∃ b, s.chooseArm = some b ∧ s.counts b = 0 := by
  cases hc : s.chooseArm with
  | none =>
    exfalso
    simp only [AlphaUCB.chooseArm] at hc
    have hnil : allArms nd nr = [] := List.argmax_eq_none.mp hc
    have := mem_allArms a0
    rw [hnil] at this
    exact List.not_mem_nil a0 this
  | some b =>
    refine ⟨b, rfl, ?_⟩
    have hmem : b ∈ (allArms nd nr).argmax (ucbVal s) := Option.mem_def.mpr hc
    have hle := List.le_of_mem_argmax (mem_allArms a0) hmem
    have ha0top : ucbVal s a0 = ⊤ := by simp only [ucbVal, if_pos h0]
    rw [ha0top] at hle
    have htop : ucbVal s b = ⊤ := top_le_iff.mp hle
    by_contra hb
    simp only [ucbVal, if_neg hb] at htop
    exact WithTop.coe_ne_top htop

theorem ucbRun_counts_le_succ {nd nr : ℕ} (s0 : AlphaUCB nd nr)
    (outcomes : ℕ → Outcome) (t : ℕ) (b : Fin nd × Fin nr) :
    (ucbRun s0 outcomes t).counts b ≤ (ucbRun s0 outcomes (t + 1)).counts b := by
  simp only [ucbRun]
  cases hc : (ucbRun s0 outcomes t).chooseArm with
  | none => exact le_refl _
  | some a =>
    show (ucbRun s0 outcomes t).counts b ≤
      (AlphaUCB.update (ucbRun s0 outcomes t) a (outcomes t)).counts b
    simp only [AlphaUCB.update]
    split_ifs with hba
    · exact Nat.le_succ _
    · exact le_refl _

theorem ucbRun_counts_mono {nd nr : ℕ} (s0 : AlphaUCB nd nr)
    (outcomes : ℕ → Outcome) (b : Fin nd × Fin nr) {s t : ℕ} (h : s ≤ t) :
    (ucbRun s0 outcomes s).counts b ≤ (ucbRun s0 outcomes t).counts b := by
  induction t, h using Nat.le_induction with
  | base => exact le_refl _
  | succ t _ ih => exact le_trans ih (ucbRun_counts_le_succ s0 outcomes t b)

theorem ucbRun_counts_chosen {nd nr : ℕ} (s0 : AlphaUCB nd nr)
    (outcomes : ℕ → Outcome) (t : ℕ) (a : Fin nd × Fin nr)
    (hc : chosenAt s0 outcomes t = some a) :
    (ucbRun s0 outcomes (t + 1)).counts a = (ucbRun s0 outcomes t).counts a + 1 := by
  simp only [ucbRun]
  rw [show (ucbRun s0 outcomes t).chooseArm = some a from hc]
  show (AlphaUCB.update (ucbRun s0 outcomes t) a (outcomes t)).counts a = _
  simp [AlphaUCB.update]

theorem ucbRun_sum_counts_le {nd nr : ℕ} (s0 : AlphaUCB nd nr)
    (outcomes : ℕ → Outcome) (hz : ∀ a, s0.counts a = 0) (t : ℕ) :
    (∑ a, (ucbRun s0 outcomes t).counts a) ≤ t := by
  induction t with
  | zero => simp [ucbRun, hz]
  | succ t ih =>
    simp only [ucbRun]
    cases hc : (ucbRun s0 outcomes t).chooseArm with
    | none => exact le_trans ih (Nat.le_succ t)
    | some a =>
      show (∑ b, (AlphaUCB.update (ucbRun s0 outcomes t) a (outcomes t)).counts b) ≤ t + 1
      have hsum : (∑ b, (AlphaUCB.update (ucbRun s0 outcomes t) a (outcomes t)).counts b) =
          (∑ b, (ucbRun s0 outcomes t).counts b) + 1 := by
        simp only [AlphaUCB.update]
        have hterm : ∀ b : Fin nd × Fin nr,
            (if b = a then (ucbRun s0 outcomes t).counts b + 1
              else (ucbRun s0 outcomes t).counts b) =
            (ucbRun s0 outcomes t).counts b + (if b = a then 1 else 0) := by
          intro b
          split_ifs with hba
          · rfl
          · rfl
        rw [Finset.sum_congr rfl (fun b _ => hterm b), Finset.sum_add_distrib,
          Finset.sum_ite_eq' Finset.univ a (fun _ => 1), if_pos (Finset.mem_univ a)]
      rw [hsum]
      exact Nat.add_le_add_right ih 1

theorem ucb_exists_unplayed {nd nr : ℕ} (s : AlphaUCB nd nr) (t : ℕ)
    (hsum : (∑ a, s.counts a) ≤ t) (ht : t < nd * nr) :
    ∃ a, s.counts a = 0 := by
  by_contra h
  push_neg at h
  have h1 : ∀ a ∈ Finset.univ, 1 ≤ s.counts a :=
    fun a _ => Nat.one_le_iff_ne_zero.mpr (h a)
  have hcard := Finset.card_nsmul_le_sum Finset.univ (fun a => s.counts a) 1 h1
  rw [Finset.card_univ, Fintype.card_prod, Fintype.card_fin, Fintype.card_fin,
    smul_eq_mul, mul_one] at hcard
  omega

/-- Claim C8: under the AlphaUCB selection scheme every arm (destroy,
repair pair) is selected at least once before any arm is selected a
second time: in any run starting from the fresh scheme, two iteration
indices below the number of arms never select the same arm, because
unplayed arms have priority (their index is treated as plus infinity) in
the argmax over the upper-confidence indices. -/
theorem claim_C8_alpha_ucb (nd nr : ℕ) (alpha : ℝ) (scores : Outcome → ℝ)
    (outcomes : ℕ → Outcome) (s t : ℕ) (hst : s < t) (ht : t < nd * nr) :
    chosenAt (AlphaUCB.start nd nr alpha scores) outcomes s ≠
      chosenAt (AlphaUCB.start nd nr alpha scores) outcomes t := by
  intro heq
  have hz : ∀ a, (AlphaUCB.start nd nr alpha scores).counts a = 0 := fun _ => rfl
  have hsum := ucbRun_sum_counts_le (AlphaUCB.start nd nr alpha scores) outcomes hz t
  obtain ⟨a0, ha0⟩ :=
    ucb_exists_unplayed (ucbRun (AlphaUCB.start nd nr alpha scores) outcomes t) t hsum ht
  obtain ⟨b, hb, hb0⟩ :=
    chooseArm_counts_zero (ucbRun (AlphaUCB.start nd nr alpha scores) outcomes t) a0 ha0
  have hct : chosenAt (AlphaUCB.start nd nr alpha scores) outcomes t = some b := hb
  have hcs : chosenAt (AlphaUCB.start nd nr alpha scores) outcomes s = some b := by
    rw [heq]
    exact hct
  have hinc := ucbRun_counts_chosen (AlphaUCB.start nd nr alpha scores) outcomes s b hcs
  have hmono := ucbRun_counts_mono (AlphaUCB.start nd nr alpha scores) outcomes b
    (show s + 1 ≤ t from hst)
  omega

/-- Concrete instance of claim C8: on the 2 by 1 grid, the arms chosen at
iterations 0 and 1 differ. -/
theorem claim_C8_alpha_ucb_witness :
    chosenAt (AlphaUCB.start 2 1 1 (fun _ => 0)) (fun _ => Outcome.reject) 0 ≠
      chosenAt (AlphaUCB.start 2 1 1 (fun _ => 0)) (fun _ => Outcome.reject) 1 :=
  claim_C8_alpha_ucb 2 1 1 (fun _ => 0) (fun _ => Outcome.reject) 0 1
    (by norm_num) (by norm_num)

end AlnsModel
